import Mathlib

/-!
Verification of the karateclub embedding estimators (DeepWalk, Role2Vec, GL2Vec)
against their specification.  The graph-algorithmic core is embedded shallowly:
graphs are node/edge lists (mirroring networkx's `nodes()` / `edges()` views),
Python dicts are association lists in insertion order, and the external
embedding trainer (gensim Word2Vec / Doc2Vec) is an abstract function from
string tags to vectors, as the spec's §6 interface prescribes.
-/

/-- A finite graph given by its node list and edge list, mirroring the
networkx graph object's `nodes()` and `edges()` iteration views. -/
structure FinGraph (α : Type) where
  nodes : List α
  edges : List (α × α)
deriving DecidableEq

/-- Python's `str` applied to a node id / index, modeled as the number's
decimal digit list (`Nat.digits 10`).  The pipeline uses tags only as opaque
identifiers, so all that matters is that this encoding, like the decimal
string, is injective. -/
def pyStr (n : Nat) : List Nat := Nat.digits 10 n

/-- The tag encoding `pyStr` is injective, as `str` on distinct integers yields distinct strings. -/
theorem pyStr_injective : Function.Injective pyStr := by
  intro a b h
  have ha := Nat.ofDigits_digits 10 a
  have hb := Nat.ofDigits_digits 10 b
  rw [← ha, ← hb]
  unfold pyStr at h
  rw [h]

/-- The canonical (sorted) 2-tuple networkx's `line_graph` uses to name the
line-graph node of an undirected edge. -/
def sortedEdge (e : Nat × Nat) : Nat × Nat := if e.1 ≤ e.2 then e else (e.2, e.1)

/-- Two edges share an endpoint. -/
def sharesEndpoint (a b : Nat × Nat) : Bool :=
  a.1 == b.1 || a.1 == b.2 || a.2 == b.1 || a.2 == b.2

/-- All ordered pairs over a list (candidate line-graph edges). -/
def allPairs (l : List (Nat × Nat)) : List ((Nat × Nat) × (Nat × Nat)) :=
  l.flatMap (fun a => l.map (fun b => (a, b)))

/-- networkx `line_graph` on an undirected graph: one node per edge (named by
its canonical tuple), and an edge between two distinct line-graph nodes exactly
when the underlying edges share an endpoint.  Edges are recorded as ordered
pairs; the adjacency relation `adjacent` below reads them symmetrically. -/
def lineGraph (G : FinGraph Nat) : FinGraph (Nat × Nat) :=
  { nodes := (G.edges.map sortedEdge).dedup
    edges := (allPairs ((G.edges.map sortedEdge).dedup)).filter
      (fun p => decide (p.1 ≠ p.2) && sharesEndpoint p.1 p.2) }

/-- networkx `from_edgelist`: the resulting graph's nodes are exactly the
endpoints occurring in the edge list (a node incident to no listed edge does
not appear). -/
def fromEdgelist (es : List (Nat × Nat)) : FinGraph Nat :=
  { nodes := (es.flatMap (fun e => [e.1, e.2])).dedup
    edges := es }

/-- Model of `GL2Vec._create_line_graph`: take the networkx line graph, build
`node_mapper` sending the i-th line-graph node to `i` (the enumerate dict,
realized by `indexOf` into the node list), map every line-graph edge through
it and rebuild the graph with `from_edgelist`. -/
def createLineGraph (G : FinGraph Nat) : FinGraph Nat :=
  fromEdgelist ((lineGraph G).edges.map
    (fun e => ((lineGraph G).nodes.indexOf e.1, (lineGraph G).nodes.indexOf e.2)))

/-- Undirected adjacency in an edge-list graph. -/
def adjacent (G : FinGraph Nat) (u v : Nat) : Prop :=
  (u, v) ∈ G.edges ∨ (v, u) ∈ G.edges

/-! ## Role2Vec document builder (`Role2Vec._create_documents`)

Python dicts are association lists holding entries in insertion order; the
Weisfeiler-Lehman feature tokens are opaque and modeled as `Nat`.  The
per-node feature dict `features` maps a node id to its feature multiset
(a token list), and the accumulator dict `new_features` maps a node id to the
list of feature multisets appended so far. -/

/-- Model of `Role2Vec._transform_walks`: `int(node)` over the string walks.  String
node ids are in bijection with the integers they denote, so the parse is the
identity on the already-integer model. -/
def transformWalks (walks : List (List Nat)) : List (List Nat) :=
  walks.map (fun walk => walk.map (fun node => node))

/-- Lookup `features[x]` in the per-node feature dict.  Callers establish that `x`
is a key (Python raises `KeyError` otherwise); on a missing key the model
returns the empty multiset. -/
def featOf (feats : List (Nat × List Nat)) (x : Nat) : List Nat :=
  (feats.lookup x).getD []

/-- The dict update `new_features[k].append(v)`: rebuild the accumulator dict with `v`
appended to the buffer of key `k`, keeping entry order.  Python mutates the
single entry of an existing key; callers establish `k` is a key. -/
def appendAt (acc : List (Nat × List (List Nat))) (k : Nat) (v : List Nat) :
    List (Nat × List (List Nat)) :=
  acc.map (fun p => if p.1 = k then (p.1, p.2 ++ [v]) else p)

/-- The body of the innermost loop of `Role2Vec._create_documents` for one
walk and offsets `i`, `j`: with `source = walk[i]` and `target = walk[i+j]`,
append `features[target]` to `new_features[source]` and then
`features[source]` to `new_features[target]`. -/
def processPair (feats : List (Nat × List Nat)) (acc : List (Nat × List (List Nat)))
    (walk : List Nat) (i j : Nat) : List (Nat × List (List Nat)) :=
  let source := walk.getD i 0
  let target := walk.getD (i + j) 0
  appendAt (appendAt acc source (featOf feats target)) target (featOf feats source)

/-- The two nested loops of `Role2Vec._create_documents` over one walk:
`for i in range(walk_length - window_size): for j in range(window_size)`.
Python's `range` of a non-positive bound is empty, as is `List.range` of the
truncated `Nat` subtraction. -/
def processWalk (wl ws : Nat) (feats : List (Nat × List Nat))
    (acc : List (Nat × List (List Nat))) (walk : List Nat) :
    List (Nat × List (List Nat)) :=
  (List.range (wl - ws)).foldl (fun acc i =>
    (List.range ws).foldl (fun acc j => processPair feats acc walk i j) acc) acc

/-- A gensim `TaggedDocument`: a token sequence and a list of tags. -/
structure TaggedDoc where
  words : List Nat
  tags : List (List Nat)
deriving DecidableEq

/-- Model of `Role2Vec._create_documents`: initialize one empty buffer per feature-dict
key, run the windowed double-append loop over all (int-converted) walks, then
flatten each buffer and tag it with the stringified node id. -/
def createDocuments (wl ws : Nat) (walks : List (List Nat))
    (feats : List (Nat × List Nat)) : List TaggedDoc :=
  let newFeatures : List (Nat × List (List Nat)) := feats.map (fun p => (p.1, []))
  let iwalks := transformWalks walks
  let acc := iwalks.foldl (processWalk wl ws feats) newFeatures
  acc.map (fun p => { words := p.2.flatten, tags := [pyStr p.1] })

/-! Characterization of the accumulator: the contribution of one `(walk, i, j)`
triple to the buffer of a node `c`. -/

/-- What the `(i, j)` window step of one walk appends to the buffer of node
`c`: `features[target]` if `c` is the source, then `features[source]` if `c`
is the target (both, in that order, when `i + j` hits `c` twice). -/
def windowContrib (feats : List (Nat × List Nat)) (c : Nat) (walk : List Nat)
    (i j : Nat) : List (List Nat) :=
  (if c = walk.getD i 0 then [featOf feats (walk.getD (i + j) 0)] else []) ++
    (if c = walk.getD (i + j) 0 then [featOf feats (walk.getD i 0)] else [])

/-- Everything one walk appends to the buffer of node `c`. -/
def walkContrib (wl ws : Nat) (feats : List (Nat × List Nat)) (c : Nat)
    (walk : List Nat) : List (List Nat) :=
  (List.range (wl - ws)).flatMap (fun i =>
    (List.range ws).flatMap (fun j => windowContrib feats c walk i j))

/-- Everything the whole walk corpus appends to the buffer of node `c`. -/
def totalContrib (wl ws : Nat) (feats : List (Nat × List Nat)) (c : Nat)
    (walks : List (List Nat)) : List (List Nat) :=
  walks.flatMap (walkContrib wl ws feats c)

theorem appendAt_length (acc : List (Nat × List (List Nat))) (k : Nat) (v : List Nat) :
    (appendAt acc k v).length = acc.length := by
  simp [appendAt]

theorem appendAt_getElem (acc : List (Nat × List (List Nat))) (k : Nat) (v : List Nat)
    (i : Nat) :
    (appendAt acc k v)[i]? =
      (acc[i]?).map (fun p => (p.1, p.2 ++ if p.1 = k then [v] else [])) := by
  simp only [appendAt, List.getElem?_map]
  cases h : acc[i]? with
  | none => rfl
  | some p => by_cases hk : p.1 = k <;> simp [hk]

theorem processPair_getElem (feats : List (Nat × List Nat))
    (acc : List (Nat × List (List Nat))) (walk : List Nat) (i j k : Nat) :
    (processPair feats acc walk i j)[k]? =
      (acc[k]?).map (fun p => (p.1, p.2 ++ windowContrib feats p.1 walk i j)) := by
  simp only [processPair, appendAt_getElem, Option.map_map]
  cases h : acc[k]? with
  | none => rfl
  | some p =>
    simp only [Option.map_some']
    by_cases h1 : p.1 = walk.getD i 0 <;> by_cases h2 : p.1 = walk.getD (i + j) 0 <;>
      simp [windowContrib, h1, h2]

/-- Characterization of a left fold whose every step appends, per entry, a
key-determined batch to the buffer: the fold appends the concatenation of all
batches. -/
theorem foldl_getElem_append {β : Type}
    (f : List (Nat × List (List Nat)) → β → List (Nat × List (List Nat)))
    (g : Nat → β → List (List Nat))
    (hget : ∀ (acc : List (Nat × List (List Nat))) (b : β) (k : Nat), (f acc b)[k]? =
      (acc[k]?).map (fun p => (p.1, p.2 ++ g p.1 b))) :
    ∀ (L : List β) (acc : List (Nat × List (List Nat))) (k : Nat),
      (L.foldl f acc)[k]? =
        (acc[k]?).map (fun p => (p.1, p.2 ++ L.flatMap (g p.1))) := by
  intro L
  induction L with
  | nil =>
    intro acc k
    cases h : acc[k]? <;> simp [h]
  | cons b L ih =>
    intro acc k
    rw [List.foldl_cons, ih (f acc b) k, hget acc b k]
    cases h : acc[k]? <;> simp [h]

theorem processWalk_getElem (wl ws : Nat) (feats : List (Nat × List Nat))
    (acc : List (Nat × List (List Nat))) (walk : List Nat) (k : Nat) :
    (processWalk wl ws feats acc walk)[k]? =
      (acc[k]?).map (fun p => (p.1, p.2 ++ walkContrib wl ws feats p.1 walk)) := by
  unfold processWalk walkContrib
  exact foldl_getElem_append _
    (fun c i => (List.range ws).flatMap (fun j => windowContrib feats c walk i j))
    (fun acc i k => foldl_getElem_append _
      (fun c j => windowContrib feats c walk i j)
      (fun acc j k => processPair_getElem feats acc walk i j k)
      (List.range ws) acc k)
    (List.range (wl - ws)) acc k

theorem corpusFold_getElem (wl ws : Nat) (feats : List (Nat × List Nat))
    (walks : List (List Nat)) (acc : List (Nat × List (List Nat))) (k : Nat) :
    (walks.foldl (processWalk wl ws feats) acc)[k]? =
      (acc[k]?).map (fun p => (p.1, p.2 ++ totalContrib wl ws feats p.1 walks)) := by
  unfold totalContrib
  exact foldl_getElem_append _ (fun c w => walkContrib wl ws feats c w)
    (fun acc w k => processWalk_getElem wl ws feats acc w k) walks acc k

theorem transformWalks_eq (walks : List (List Nat)) : transformWalks walks = walks := by
  simp [transformWalks]

/-- The central characterization of `Role2Vec._create_documents`: the `k`-th
returned document belongs to the `k`-th feature-dict key, carries its
stringified node id as only tag, and its token sequence is the flattening of
exactly the multisets the windowed loop appends for it. -/
theorem createDocuments_getElem (wl ws : Nat) (walks : List (List Nat))
    (feats : List (Nat × List Nat)) (k : Nat) :
    (createDocuments wl ws walks feats)[k]? =
      (feats[k]?).map (fun p =>
        { words := (totalContrib wl ws feats p.1 walks).flatten,
          tags := [pyStr p.1] }) := by
  unfold createDocuments
  rw [transformWalks_eq]
  simp only [List.getElem?_map, corpusFold_getElem, Option.map_map]
  cases h : feats[k]? <;> simp [h]

theorem foldl_length_pres {β : Type}
    (f : List (Nat × List (List Nat)) → β → List (Nat × List (List Nat)))
    (hlen : ∀ acc b, (f acc b).length = acc.length) :
    ∀ (L : List β) (acc : List (Nat × List (List Nat))),
      (L.foldl f acc).length = acc.length := by
  intro L
  induction L with
  | nil => intro acc; rfl
  | cons b L ih => intro acc; rw [List.foldl_cons, ih (f acc b), hlen]

theorem processWalk_length (wl ws : Nat) (feats : List (Nat × List Nat))
    (acc : List (Nat × List (List Nat))) (walk : List Nat) :
    (processWalk wl ws feats acc walk).length = acc.length := by
  unfold processWalk
  exact foldl_length_pres _
    (fun acc i => foldl_length_pres _
      (fun acc j => by simp [processPair, appendAt_length]) (List.range ws) acc)
    (List.range (wl - ws)) acc

theorem createDocuments_length (wl ws : Nat) (walks : List (List Nat))
    (feats : List (Nat × List Nat)) :
    (createDocuments wl ws walks feats).length = feats.length := by
  unfold createDocuments
  simp only [List.length_map]
  rw [foldl_length_pres _ (fun acc w => processWalk_length wl ws feats acc w),
    List.length_map]

/-- If a node is long-gone from every (full-length) walk, the windowed loop
never appends to its buffer. -/
theorem totalContrib_eq_nil (wl ws : Nat) (feats : List (Nat × List Nat)) (v : Nat)
    (walks : List (List Nat)) (hwlen : ∀ w ∈ walks, wl ≤ w.length)
    (hnot : ∀ w ∈ walks, v ∉ w) :
    totalContrib wl ws feats v walks = [] := by
  unfold totalContrib walkContrib
  rw [List.flatMap_eq_nil_iff]
  intro w hw
  rw [List.flatMap_eq_nil_iff]
  intro i hi
  rw [List.flatMap_eq_nil_iff]
  intro j hj
  rw [List.mem_range] at hi hj
  have hlw := hwlen w hw
  have hiw : i < w.length := by omega
  have hijw : i + j < w.length := by omega
  have h1 : w.getD i 0 ∈ w := by
    rw [List.getD_eq_getElem w 0 hiw]; exact List.getElem_mem hiw
  have h2 : w.getD (i + j) 0 ∈ w := by
    rw [List.getD_eq_getElem w 0 hijw]; exact List.getElem_mem hijw
  have n1 : ¬ v = w.getD i 0 := fun e => hnot w hw (e ▸ h1)
  have n2 : ¬ v = w.getD (i + j) 0 := fun e => hnot w hw (e ▸ h2)
  unfold windowContrib
  rw [if_neg n1, if_neg n2]
  rfl

/-- C1: `Role2Vec._create_documents` iterates over offsets
`i ∈ [0, walk_length - window_size)` and `j ∈ [0, window_size)` of every walk
and, for each pair, appends `features[target]` to the accumulator of `source`
and `features[source]` to the accumulator of `target`
(`source = walk[i]`, `target = walk[i+j]`); the `k`-th result document holds
exactly the flattened concatenation of those appends for the `k`-th node, and
at `j = 0` (where source = target) a node occurrence appends the node's own
feature multiset to its own accumulator twice. -/
theorem role2vec_window_accumulation (wl ws : Nat) (walks : List (List Nat))
    (feats : List (Nat × List Nat)) :
    ((createDocuments wl ws walks feats).length = feats.length ∧
      ∀ k : Nat, (createDocuments wl ws walks feats)[k]? =
        (feats[k]?).map (fun p =>
          { words := (walks.flatMap (fun walk =>
              (List.range (wl - ws)).flatMap (fun i =>
                (List.range ws).flatMap (fun j =>
                  windowContrib feats p.1 walk i j)))).flatten,
            tags := [pyStr p.1] })) ∧
    (∀ (c : Nat) (walk : List Nat) (i : Nat), c = walk.getD i 0 →
      windowContrib feats c walk i 0 = [featOf feats c, featOf feats c]) := by
  refine ⟨⟨createDocuments_length wl ws walks feats, ?_⟩, ?_⟩
  · intro k
    rw [createDocuments_getElem]
    rfl
  · intro c walk i h
    subst h
    simp [windowContrib]

theorem role2vec_window_accumulation_witness :
    (createDocuments 3 2 [[0, 1, 0]] [(0, [4]), (1, [5])]).length = 2 ∧
    windowContrib [(0, [4]), (1, [5])] 0 [0, 1, 0] 0 0 =
      [featOf [(0, [4]), (1, [5])] 0, featOf [(0, [4]), (1, [5])] 0] :=
  ⟨(role2vec_window_accumulation 3 2 [[0, 1, 0]] [(0, [4]), (1, [5])]).1.1,
    (role2vec_window_accumulation 3 2 [[0, 1, 0]] [(0, [4]), (1, [5])]).2
      0 [0, 1, 0] 0 (by decide)⟩

/-- C4: the document list returned by `Role2Vec._create_documents` has exactly
one entry per key of the feature dict, in key order; a node that occurs in no
walk still keeps its entry, with an empty token sequence rather than being
dropped.  (Walks are assumed to have the configured `walk_length`, as the
walker guarantees; Python would raise `IndexError` otherwise.) -/
theorem role2vec_documents_cover_all_nodes (wl ws : Nat) (walks : List (List Nat))
    (feats : List (Nat × List Nat)) (hwlen : ∀ w ∈ walks, wl ≤ w.length) :
    (createDocuments wl ws walks feats).length = feats.length ∧
    ∀ (k : Nat) (h : k < feats.length), ∃ d : TaggedDoc,
      (createDocuments wl ws walks feats)[k]? = some d ∧
      d.tags = [pyStr (feats.get ⟨k, h⟩).1] ∧
      ((∀ w ∈ walks, (feats.get ⟨k, h⟩).1 ∉ w) → d.words = []) := by
  refine ⟨createDocuments_length wl ws walks feats, ?_⟩
  intro k h
  have hk : feats[k]? = some (feats.get ⟨k, h⟩) := List.getElem?_eq_getElem h
  refine ⟨_, by rw [createDocuments_getElem, hk]; rfl, rfl, ?_⟩
  intro hnot
  show (totalContrib wl ws feats (feats.get ⟨k, h⟩).1 walks).flatten = []
  rw [totalContrib_eq_nil wl ws feats _ walks hwlen hnot]
  rfl

theorem role2vec_documents_cover_all_nodes_witness :
    ∃ d : TaggedDoc, (createDocuments 2 1 [[1, 1]] [(0, [4]), (7, [9])])[1]? = some d ∧
      d.tags = [pyStr 7] ∧ d.words = [] := by
  obtain ⟨d, hd, ht, hw⟩ :=
    (role2vec_documents_cover_all_nodes 2 1 [[1, 1]] [(0, [4]), (7, [9])]
      (by decide)).2 1 (by decide)
  exact ⟨d, hd, ht, hw (by decide)⟩

/-- C5: with `window_size ≥ walk_length` the document builder raises no error:
`range(walk_length - window_size)` is empty, no pairs are formed, and every
node receives an empty pooled document (the configuration is not rejected
eagerly). -/
theorem role2vec_degenerate_window (wl ws : Nat) (walks : List (List Nat))
    (feats : List (Nat × List Nat)) (h : wl ≤ ws) :
    (createDocuments wl ws walks feats).length = feats.length ∧
    ∀ k : Nat, (createDocuments wl ws walks feats)[k]? =
      (feats[k]?).map (fun p => { words := [], tags := [pyStr p.1] }) := by
  refine ⟨createDocuments_length wl ws walks feats, ?_⟩
  intro k
  rw [createDocuments_getElem]
  have hz : wl - ws = 0 := Nat.sub_eq_zero_of_le h
  cases hf : feats[k]? <;> simp [hf, totalContrib, walkContrib, hz]

theorem role2vec_degenerate_window_witness :
    (createDocuments 1 2 [[0]] [(0, [3])])[0]? =
      some { words := [], tags := [pyStr 0] } := by
  have := (role2vec_degenerate_window 1 2 [[0]] [(0, [3])] (by decide)).2 0
  simpa using this

/-! ## Corpus assembly and the estimator states -/

/-- Corpus assembly of `GL2Vec.fit`: transform every input graph into its line
graph, hash each into its graph feature multiset (the Weisfeiler-Lehman hasher
`WeisfeilerLehmanHashing(...).get_graph_features()` is the abstract
collaborator `hashing`), and tag the `i`-th document with `str(i)`. -/
def gl2vecDocuments (graphs : List (FinGraph Nat))
    (hashing : FinGraph Nat → List Nat) : List TaggedDoc :=
  let lineGraphs := graphs.map createLineGraph
  let docs := lineGraphs.map hashing
  docs.enum.map (fun p => { words := p.2, tags := [pyStr p.1] })

/-- Mapping only the index out of an enumeration. -/
theorem enum_fst_map {α β : Type} (l : List α) (f : Nat → β) :
    l.enum.map (fun p => f p.1) = (List.range l.length).map f := by
  have h1 : l.enum.map (fun p => f p.1) = (l.enum.map Prod.fst).map f := by
    rw [List.map_map]; rfl
  rw [h1, List.enum_map_fst]

/-- Estimator state: `__init__` stores only hyperparameters; the
`_embedding` attribute first exists after `fit` (`none` models its absence). -/
structure EstimatorState (V : Type) where
  embedding : Option (List V)

/-- A freshly constructed estimator, before any `fit` call. -/
def initState (V : Type) : EstimatorState V := ⟨none⟩

/-- The `get_embedding` shared by DeepWalk, GL2Vec and Role2Vec: return the
stored vectors, or fail (Python raises `AttributeError` for the missing
`_embedding`) when `fit` has never run.  It only reads the state. -/
def getEmbedding {V : Type} (s : EstimatorState V) : Except String (List V) :=
  match s.embedding with
  | none => Except.error "AttributeError: _embedding"
  | some e => Except.ok e

/-- Model of `DeepWalk.fit`: the sampled walks feed the external Word2Vec trainer
(abstract `wordvecs`, tag → vector); the estimator stores
`[model[str(n)] for n in range(num_of_nodes)]`. -/
def deepwalkFit {V : Type} (g : FinGraph Nat) (wordvecs : List Nat → V)
    (_s : EstimatorState V) : EstimatorState V :=
  ⟨some ((List.range g.nodes.length).map (fun n => wordvecs (pyStr n)))⟩

/-- Model of `GL2Vec.fit`: assemble the tagged corpus over line graphs, train the
external Doc2Vec (abstract `docvecs`), and store
`[model.docvecs[str(i)] for i, _ in enumerate(documents)]`. -/
def gl2vecFit {V : Type} (graphs : List (FinGraph Nat))
    (hashing : FinGraph Nat → List Nat) (docvecs : List Nat → V)
    (_s : EstimatorState V) : EstimatorState V :=
  let documents := gl2vecDocuments graphs hashing
  ⟨some (documents.enum.map (fun p => docvecs (pyStr p.1)))⟩

/-- Model of `Role2Vec.fit`: build the pooled documents, train the external Doc2Vec
(abstract `docvecs`), and store
`[model.docvecs[str(i)] for i, _ in enumerate(documents)]`. -/
def role2vecFit {V : Type} (wl ws : Nat) (walks : List (List Nat))
    (feats : List (Nat × List Nat)) (docvecs : List Nat → V)
    (_s : EstimatorState V) : EstimatorState V :=
  let documents := createDocuments wl ws walks feats
  ⟨some (documents.enum.map (fun p => docvecs (pyStr p.1)))⟩

theorem gl2vecDocuments_tags (graphs : List (FinGraph Nat))
    (hashing : FinGraph Nat → List Nat) :
    (gl2vecDocuments graphs hashing).map TaggedDoc.tags =
      (List.range graphs.length).map (fun i => [pyStr i]) := by
  unfold gl2vecDocuments
  rw [List.map_map]
  have := enum_fst_map ((graphs.map createLineGraph).map hashing)
    (fun i => [pyStr i])
  simpa using this

theorem createDocuments_tags (wl ws : Nat) (walks : List (List Nat))
    (feats : List (Nat × List Nat)) :
    (createDocuments wl ws walks feats).map TaggedDoc.tags =
      (feats.map Prod.fst).map (fun v => [pyStr v]) := by
  apply List.ext_getElem?
  intro k
  rw [List.getElem?_map, createDocuments_getElem, List.getElem?_map,
    List.getElem?_map, Option.map_map, Option.map_map]
  cases h : feats[k]? <;> simp [h]

/-- C6: every tag the core passes to the external trainer is distinct, and the
convention holds: `GL2Vec.fit` tags the `i`-th graph's document `str(i)` and
`Role2Vec._create_documents` tags each node's pooled document with the
stringified node id; within one corpus (dict keys being distinct) no two
documents share a tag. -/
theorem corpus_tags_distinct (graphs : List (FinGraph Nat))
    (hashing : FinGraph Nat → List Nat) (wl ws : Nat) (walks : List (List Nat))
    (feats : List (Nat × List Nat)) (hkeys : (feats.map Prod.fst).Nodup) :
    ((gl2vecDocuments graphs hashing).map TaggedDoc.tags =
      (List.range graphs.length).map (fun i => [pyStr i])) ∧
    ((gl2vecDocuments graphs hashing).map TaggedDoc.tags).Nodup ∧
    ((createDocuments wl ws walks feats).map TaggedDoc.tags =
      (feats.map Prod.fst).map (fun v => [pyStr v])) ∧
    ((createDocuments wl ws walks feats).map TaggedDoc.tags).Nodup := by
  have hinj : Function.Injective (fun v : Nat => [pyStr v]) := by
    intro a b h
    have : pyStr a = pyStr b := by
      have := congrArg (fun l => List.headD l []) h
      simpa using this
    exact pyStr_injective this
  refine ⟨gl2vecDocuments_tags graphs hashing, ?_,
    createDocuments_tags wl ws walks feats, ?_⟩
  · rw [gl2vecDocuments_tags]
    exact (List.nodup_range graphs.length).map hinj
  · rw [createDocuments_tags]
    exact hkeys.map hinj

theorem corpus_tags_distinct_witness :
    ((gl2vecDocuments [⟨[0], []⟩, ⟨[0], []⟩] (fun _ => [])).map TaggedDoc.tags).Nodup ∧
    ((createDocuments 2 1 [[0, 1]] [(0, [4]), (1, [5])]).map TaggedDoc.tags).Nodup :=
  ⟨(corpus_tags_distinct [⟨[0], []⟩, ⟨[0], []⟩] (fun _ => []) 2 1 [[0, 1]]
      [(0, [4]), (1, [5])] (by decide)).2.1,
    (corpus_tags_distinct [⟨[0], []⟩, ⟨[0], []⟩] (fun _ => []) 2 1 [[0, 1]]
      [(0, [4]), (1, [5])] (by decide)).2.2.2⟩

/-- C7: after a successful `fit`, `get_embedding` returns one vector per
entity in index order: DeepWalk yields the trainer's vectors for nodes
`0 .. n-1` ordered by node id, and GL2Vec yields one vector per input graph
ordered by its position in the input list. -/
theorem get_embedding_index_order {V : Type} (g : FinGraph Nat)
    (wordvecs : List Nat → V) (graphs : List (FinGraph Nat))
    (hashing : FinGraph Nat → List Nat) (docvecs : List Nat → V) :
    (∃ L, getEmbedding (deepwalkFit g wordvecs (initState V)) = Except.ok L ∧
      L.length = g.nodes.length ∧
      ∀ n : Nat, n < g.nodes.length → L[n]? = some (wordvecs (pyStr n))) ∧
    (∃ L, getEmbedding (gl2vecFit graphs hashing docvecs (initState V)) = Except.ok L ∧
      L.length = graphs.length ∧
      ∀ i : Nat, i < graphs.length → L[i]? = some (docvecs (pyStr i))) := by
  constructor
  · refine ⟨_, rfl, by simp [deepwalkFit], ?_⟩
    intro n hn
    show (((List.range g.nodes.length)).map (fun n => wordvecs (pyStr n)))[n]? = _
    rw [List.getElem?_map, List.getElem?_eq_getElem (by simpa using hn)]
    simp
  · have hdoclen : (gl2vecDocuments graphs hashing).length = graphs.length := by
      unfold gl2vecDocuments
      simp
    refine ⟨_, rfl, ?_, ?_⟩
    · show ((gl2vecDocuments graphs hashing).enum.map
        (fun p => docvecs (pyStr p.1))).length = graphs.length
      simp [hdoclen]
    · intro i hi
      show ((gl2vecDocuments graphs hashing).enum.map
        (fun p => docvecs (pyStr p.1)))[i]? = _
      rw [enum_fst_map (gl2vecDocuments graphs hashing) (fun x => docvecs (pyStr x)),
        List.getElem?_map, List.getElem?_eq_getElem (by simpa [hdoclen] using hi)]
      simp

theorem get_embedding_index_order_witness :
    ∃ L, getEmbedding (deepwalkFit ⟨[0, 1], [(0, 1)]⟩ (fun t => t) (initState (List Nat)))
        = Except.ok L ∧
      L.length = 2 ∧ L[1]? = some (pyStr 1) := by
  obtain ⟨⟨L, hok, hlen, hidx⟩, -⟩ :=
    get_embedding_index_order (V := List Nat) ⟨[0, 1], [(0, 1)]⟩ (fun t => t)
      [] (fun _ => []) (fun t => t)
  exact ⟨L, hok, hlen, hidx 1 (by decide)⟩

/-- C8: on a freshly constructed estimator (DeepWalk, GL2Vec or Role2Vec),
`get_embedding` fails with the missing-attribute error instead of returning a
value; the failure leaves the state untouched (`getEmbedding` is a pure read),
so fitting afterwards and reading again succeeds. -/
theorem get_embedding_requires_fit {V : Type} (g : FinGraph Nat)
    (wordvecs : List Nat → V) (graphs : List (FinGraph Nat))
    (hashing : FinGraph Nat → List Nat) (docvecs : List Nat → V)
    (wl ws : Nat) (walks : List (List Nat)) (feats : List (Nat × List Nat))
    (rdocvecs : List Nat → V) :
    getEmbedding (initState V) = Except.error "AttributeError: _embedding" ∧
    (∃ L, getEmbedding (deepwalkFit g wordvecs (initState V)) = Except.ok L) ∧
    (∃ L, getEmbedding (gl2vecFit graphs hashing docvecs (initState V)) = Except.ok L) ∧
    (∃ L, getEmbedding (role2vecFit wl ws walks feats rdocvecs (initState V)) = Except.ok L) :=
  ⟨rfl, ⟨_, rfl⟩, ⟨_, rfl⟩, ⟨_, rfl⟩⟩

/-- C10: when the feature dict's keys are exactly `0 .. n-1` in ascending
insertion order, the `i`-th pooled document carries tag `str(i)`, so the
embedding list `Role2Vec.fit` stores — looked up positionally via
`model.docvecs[str(i)]` — has node `i`'s vector at position `i`. -/
theorem role2vec_positional_alignment {V : Type} (wl ws n : Nat)
    (walks : List (List Nat)) (feats : List (Nat × List Nat))
    (docvecs : List Nat → V) (hkeys : feats.map Prod.fst = List.range n) :
    (createDocuments wl ws walks feats).length = n ∧
    (∀ i : Nat, i < n →
      ((createDocuments wl ws walks feats)[i]?).map TaggedDoc.tags = some [pyStr i]) ∧
    (∃ L, getEmbedding (role2vecFit wl ws walks feats docvecs (initState V)) = Except.ok L ∧
      L.length = n ∧ ∀ i : Nat, i < n → L[i]? = some (docvecs (pyStr i))) := by
  have hflen : feats.length = n := by
    have := congrArg List.length hkeys
    simpa using this
  have hdlen : (createDocuments wl ws walks feats).length = n := by
    rw [createDocuments_length, hflen]
  have hkey : ∀ i : Nat, i < n → (feats[i]?).map Prod.fst = some i := by
    intro i hi
    have h1 : (feats.map Prod.fst)[i]? = some i := by
      rw [hkeys, List.getElem?_eq_getElem (by simpa using hi)]
      simp
    rw [List.getElem?_map] at h1
    exact h1
  refine ⟨hdlen, ?_, ?_⟩
  · intro i hi
    rw [createDocuments_getElem, Option.map_map]
    have := hkey i hi
    cases hf : feats[i]? with
    | none => rw [hf] at this; exact absurd this (by simp)
    | some p =>
      rw [hf] at this
      simp only [Option.map_some'] at this ⊢
      have hp : p.1 = i := by simpa using this
      simp [hp]
  · refine ⟨_, rfl, ?_, ?_⟩
    · show ((createDocuments wl ws walks feats).enum.map
        (fun p => docvecs (pyStr p.1))).length = n
      simp [hdlen]
    · intro i hi
      show ((createDocuments wl ws walks feats).enum.map
        (fun p => docvecs (pyStr p.1)))[i]? = _
      rw [enum_fst_map (createDocuments wl ws walks feats) (fun x => docvecs (pyStr x)),
        List.getElem?_map, List.getElem?_eq_getElem (by simpa [hdlen] using hi)]
      simp

theorem role2vec_positional_alignment_witness :
    ((createDocuments 2 1 [[0, 1]] [(0, [4]), (1, [5])])[1]?).map TaggedDoc.tags
      = some [pyStr 1] ∧
    (∃ L, getEmbedding (role2vecFit 2 1 [[0, 1]] [(0, [4]), (1, [5])]
        (fun t => t) (initState (List Nat))) = Except.ok L ∧
      L.length = 2 ∧ ∀ i : Nat, i < 2 → L[i]? = some (pyStr i)) := by
  obtain ⟨-, htags, hemb⟩ :=
    role2vec_positional_alignment (V := List Nat) 2 1 2 [[0, 1]]
      [(0, [4]), (1, [5])] (fun t => t) (by decide)
  exact ⟨htags 1 (by decide), hemb⟩


/-! ## GL2Vec line-graph transform: node reindexing and adjacency -/

theorem sharesEndpoint_symm (a b : Nat × Nat) :
    sharesEndpoint a b = sharesEndpoint b a := by
  rw [Bool.eq_iff_iff]
  unfold sharesEndpoint
  simp only [Bool.or_eq_true, beq_iff_eq]
  tauto

theorem sharesEndpoint_sortedEdge (u v : Nat × Nat) :
    sharesEndpoint (sortedEdge u) (sortedEdge v) = sharesEndpoint u v := by
  rw [Bool.eq_iff_iff]
  unfold sharesEndpoint sortedEdge
  by_cases h1 : u.1 ≤ u.2 <;> by_cases h2 : v.1 ≤ v.2 <;>
    simp only [h1, h2, if_true, if_false, Bool.or_eq_true, beq_iff_eq] <;> tauto

theorem mem_allPairs (l : List (Nat × Nat)) (a b : Nat × Nat) :
    (a, b) ∈ allPairs l ↔ a ∈ l ∧ b ∈ l := by
  unfold allPairs
  simp [List.mem_flatMap, List.mem_map]

theorem mem_lineGraph_edges (G : FinGraph Nat) (a b : Nat × Nat) :
    (a, b) ∈ (lineGraph G).edges ↔
      a ∈ (lineGraph G).nodes ∧ b ∈ (lineGraph G).nodes ∧ a ≠ b ∧
        sharesEndpoint a b = true := by
  show (a, b) ∈ (allPairs ((G.edges.map sortedEdge).dedup)).filter
      (fun p => decide (p.1 ≠ p.2) && sharesEndpoint p.1 p.2) ↔ _
  rw [List.mem_filter, mem_allPairs]
  show _ ∧ (decide (a ≠ b) && sharesEndpoint a b) = true ↔ _
  rw [Bool.and_eq_true, decide_eq_true_eq]
  constructor
  · rintro ⟨⟨h1, h2⟩, h3, h4⟩
    exact ⟨h1, h2, h3, h4⟩
  · rintro ⟨h1, h2, h3, h4⟩
    exact ⟨⟨h1, h2⟩, h3, h4⟩

theorem createLineGraph_nodes_mem (G : FinGraph Nat) (x : Nat) :
    x ∈ (createLineGraph G).nodes ↔
      ∃ e ∈ (lineGraph G).edges,
        x = (lineGraph G).nodes.indexOf e.1 ∨
          x = (lineGraph G).nodes.indexOf e.2 := by
  show x ∈ (((lineGraph G).edges.map
      (fun e => ((lineGraph G).nodes.indexOf e.1,
        (lineGraph G).nodes.indexOf e.2))).flatMap (fun e => [e.1, e.2])).dedup ↔ _
  rw [List.mem_dedup, List.mem_flatMap]
  constructor
  · rintro ⟨y, hy, hx⟩
    rw [List.mem_map] at hy
    obtain ⟨e, he, rfl⟩ := hy
    refine ⟨e, he, ?_⟩
    simpa using hx
  · rintro ⟨e, he, hx⟩
    refine ⟨((lineGraph G).nodes.indexOf e.1, (lineGraph G).nodes.indexOf e.2),
      List.mem_map.mpr ⟨e, he, rfl⟩, ?_⟩
    simpa using hx

theorem indexOf_beq_eq (l : List (Nat × Nat)) (a : Nat × Nat) :
    l.indexOf a = @List.indexOf _ instBEqOfDecidableEq a l := by
  unfold List.indexOf
  congr 1
  funext x
  rw [Bool.eq_iff_iff]
  show (x == a) = true ↔ decide (x = a) = true
  simp

theorem indexOf_lt_length_pair {l : List (Nat × Nat)} {a : Nat × Nat} (h : a ∈ l) :
    l.indexOf a < l.length := by
  rw [indexOf_beq_eq]
  exact List.indexOf_lt_length.mpr h

theorem getElem_indexOf_of_lt {l : List (Nat × Nat)} {a : Nat × Nat} {i : Nat}
    (h : l.indexOf a = i) (hi : i < l.length) : l[i] = a := by
  rw [indexOf_beq_eq] at h
  subst h
  have h2 := List.indexOf_get (a := a) (l := l) hi
  rwa [List.get_eq_getElem] at h2

theorem indexOf_getElem_pair {l : List (Nat × Nat)} (H : l.Nodup) (i : Nat)
    (hi : i < l.length) : l.indexOf l[i] = i := by
  rw [indexOf_beq_eq]
  exact List.indexOf_getElem H i hi

theorem lineGraph_nodes_eq (G : FinGraph Nat)
    (hnd : (G.edges.map sortedEdge).Nodup) :
    (lineGraph G).nodes = G.edges.map sortedEdge := by
  show (G.edges.map sortedEdge).dedup = _
  exact List.dedup_eq_self.mpr hnd

theorem lineGraph_nodes_length (G : FinGraph Nat)
    (hnd : (G.edges.map sortedEdge).Nodup) :
    (lineGraph G).nodes.length = G.edges.length := by
  rw [lineGraph_nodes_eq G hnd, List.length_map]

/-- Node-set characterization of `_create_line_graph`: with distinct canonical
edges none of which is isolated, the produced node ids are exactly
`[0, e)`. -/
theorem createLineGraph_nodes_iff (G : FinGraph Nat)
    (hnd : (G.edges.map sortedEdge).Nodup)
    (hiso : ∀ a ∈ G.edges.map sortedEdge, ∃ b ∈ G.edges.map sortedEdge,
      b ≠ a ∧ sharesEndpoint a b = true) (x : Nat) :
    x ∈ (createLineGraph G).nodes ↔ x < G.edges.length := by
  have hns := lineGraph_nodes_eq G hnd
  have hlen := lineGraph_nodes_length G hnd
  rw [createLineGraph_nodes_mem]
  constructor
  · rintro ⟨⟨a, b⟩, he, hx⟩
    obtain ⟨ha, hb, -, -⟩ := (mem_lineGraph_edges G a b).mp he
    rcases hx with rfl | rfl
    · have h1 := indexOf_lt_length_pair ha
      rwa [hlen] at h1
    · have h1 := indexOf_lt_length_pair hb
      rwa [hlen] at h1
  · intro hx
    have hx2 : x < (lineGraph G).nodes.length := by rw [hlen]; exact hx
    have hamem : (lineGraph G).nodes[x] ∈ G.edges.map sortedEdge := by
      rw [← hns]
      exact List.getElem_mem hx2
    obtain ⟨b, hbmem, hne, hsh⟩ := hiso ((lineGraph G).nodes[x]) hamem
    have hab : ((lineGraph G).nodes[x], b) ∈ (lineGraph G).edges := by
      rw [mem_lineGraph_edges]
      exact ⟨List.getElem_mem hx2, by rw [hns]; exact hbmem, fun h => hne h.symm, hsh⟩
    refine ⟨((lineGraph G).nodes[x], b), hab, Or.inl ?_⟩
    have hnodup : (lineGraph G).nodes.Nodup := List.nodup_dedup _
    exact (indexOf_getElem_pair hnodup x hx2).symm

theorem createLineGraph_nodes_nodup (G : FinGraph Nat) :
    (createLineGraph G).nodes.Nodup :=
  List.nodup_dedup _

theorem createLineGraph_nodes_length (G : FinGraph Nat)
    (hnd : (G.edges.map sortedEdge).Nodup)
    (hiso : ∀ a ∈ G.edges.map sortedEdge, ∃ b ∈ G.edges.map sortedEdge,
      b ≠ a ∧ sharesEndpoint a b = true) :
    (createLineGraph G).nodes.length = G.edges.length := by
  have hfin : (createLineGraph G).nodes.toFinset = Finset.range G.edges.length := by
    apply Finset.ext
    intro x
    rw [List.mem_toFinset, Finset.mem_range]
    exact createLineGraph_nodes_iff G hnd hiso x
  have h1 := List.toFinset_card_of_nodup (createLineGraph_nodes_nodup G)
  rw [hfin, Finset.card_range] at h1
  exact h1.symm

/-- Membership in the relabeled edge list of `_create_line_graph`. -/
theorem createLineGraph_edges_mem (G : FinGraph Nat) (u v : Nat) :
    (u, v) ∈ (createLineGraph G).edges ↔
      ∃ a b, (a, b) ∈ (lineGraph G).edges ∧
        (lineGraph G).nodes.indexOf a = u ∧ (lineGraph G).nodes.indexOf b = v := by
  show (u, v) ∈ (lineGraph G).edges.map
      (fun e => ((lineGraph G).nodes.indexOf e.1, (lineGraph G).nodes.indexOf e.2)) ↔ _
  rw [List.mem_map]
  constructor
  · rintro ⟨⟨a, b⟩, he, heq⟩
    rw [Prod.mk.injEq] at heq
    exact ⟨a, b, he, heq.1, heq.2⟩
  · rintro ⟨a, b, he, h1, h2⟩
    exact ⟨(a, b), he, by rw [Prod.mk.injEq]; exact ⟨h1, h2⟩⟩

/-- Adjacency characterization of `_create_line_graph` under distinct
canonical edges: the relabeled nodes `i` and `j` are adjacent iff `i ≠ j`
and the `i`-th and `j`-th original edges share an endpoint. -/
theorem createLineGraph_adjacent_iff (G : FinGraph Nat)
    (hnd : (G.edges.map sortedEdge).Nodup)
    (i j : Nat) (hi : i < G.edges.length) (hj : j < G.edges.length) :
    adjacent (createLineGraph G) i j ↔
      (i ≠ j ∧ sharesEndpoint (G.edges.get ⟨i, hi⟩) (G.edges.get ⟨j, hj⟩) = true) := by
  have hns := lineGraph_nodes_eq G hnd
  have hlen := lineGraph_nodes_length G hnd
  have hnodup : (lineGraph G).nodes.Nodup := List.nodup_dedup _
  have hi2 : i < (lineGraph G).nodes.length := by rw [hlen]; exact hi
  have hj2 : j < (lineGraph G).nodes.length := by rw [hlen]; exact hj
  have hgeti : (lineGraph G).nodes[i] = sortedEdge (G.edges[i]) := by
    rw [List.getElem_of_eq hns hi2]
    exact List.getElem_map sortedEdge
  have hgetj : (lineGraph G).nodes[j] = sortedEdge (G.edges[j]) := by
    rw [List.getElem_of_eq hns hj2]
    exact List.getElem_map sortedEdge
  constructor
  · intro hadj
    rcases hadj with hmem | hmem
    · obtain ⟨a, b, hab, hia, hjb⟩ := (createLineGraph_edges_mem G i j).mp hmem
      obtain ⟨hamem, hbmem, hneq, hsh⟩ := (mem_lineGraph_edges G a b).mp hab
      have ha : (lineGraph G).nodes[i] = a := getElem_indexOf_of_lt hia hi2
      have hb : (lineGraph G).nodes[j] = b := getElem_indexOf_of_lt hjb hj2
      constructor
      · intro hij
        subst hij
        exact hneq (ha.symm.trans hb)
      · rw [List.get_eq_getElem, List.get_eq_getElem, ← sharesEndpoint_sortedEdge,
          ← hgeti, ← hgetj, ha, hb]
        exact hsh
    · obtain ⟨a, b, hab, hja, hib⟩ := (createLineGraph_edges_mem G j i).mp hmem
      obtain ⟨hamem, hbmem, hneq, hsh⟩ := (mem_lineGraph_edges G a b).mp hab
      have ha : (lineGraph G).nodes[j] = a := getElem_indexOf_of_lt hja hj2
      have hb : (lineGraph G).nodes[i] = b := getElem_indexOf_of_lt hib hi2
      constructor
      · intro hij
        subst hij
        exact hneq (ha.symm.trans hb)
      · rw [List.get_eq_getElem, List.get_eq_getElem, ← sharesEndpoint_sortedEdge,
          ← hgeti, ← hgetj, ha, hb, sharesEndpoint_symm]
        exact hsh
  · rintro ⟨hij, hsh⟩
    apply Or.inl
    rw [createLineGraph_edges_mem]
    refine ⟨(lineGraph G).nodes[i], (lineGraph G).nodes[j], ?_,
      indexOf_getElem_pair hnodup i hi2, indexOf_getElem_pair hnodup j hj2⟩
    rw [mem_lineGraph_edges]
    refine ⟨List.getElem_mem hi2, List.getElem_mem hj2, ?_, ?_⟩
    · intro heq
      apply hij
      have h1 := indexOf_getElem_pair hnodup i hi2
      rw [heq, indexOf_getElem_pair hnodup j hj2] at h1
      exact h1.symm
    · rw [hgeti, hgetj, sharesEndpoint_sortedEdge]
      rw [List.get_eq_getElem, List.get_eq_getElem] at hsh
      exact hsh

/-- C2: for a graph with at least one edge, distinct canonical edges, and no
isolated edge (every edge shares an endpoint with some other edge),
`GL2Vec._create_line_graph` returns a graph with exactly `e` nodes whose ids
are the contiguous range `[0, e)`, two of which are adjacent iff the
corresponding original edges are distinct and share an endpoint. -/
theorem gl2vec_line_graph_reindexing (G : FinGraph Nat)
    (hnd : (G.edges.map sortedEdge).Nodup)
    (hiso : ∀ a ∈ G.edges.map sortedEdge, ∃ b ∈ G.edges.map sortedEdge,
      b ≠ a ∧ sharesEndpoint a b = true)
    (hne : 1 ≤ G.edges.length) :
    ((createLineGraph G).nodes.length = G.edges.length ∧
      (createLineGraph G).nodes.Nodup ∧
      ∀ x : Nat, x ∈ (createLineGraph G).nodes ↔ x < G.edges.length) ∧
    (∀ (i j : Nat) (hi : i < G.edges.length) (hj : j < G.edges.length),
      adjacent (createLineGraph G) i j ↔
        (i ≠ j ∧ sharesEndpoint (G.edges.get ⟨i, hi⟩) (G.edges.get ⟨j, hj⟩) = true)) :=
  ⟨⟨createLineGraph_nodes_length G hnd hiso, createLineGraph_nodes_nodup G,
    createLineGraph_nodes_iff G hnd hiso⟩,
    fun i j hi hj => createLineGraph_adjacent_iff G hnd i j hi hj⟩

theorem gl2vec_line_graph_reindexing_witness :
    (createLineGraph ⟨[0, 1, 2], [(0, 1), (1, 2)]⟩).nodes.length = 2 ∧
    adjacent (createLineGraph ⟨[0, 1, 2], [(0, 1), (1, 2)]⟩) 0 1 := by
  have h := gl2vec_line_graph_reindexing ⟨[0, 1, 2], [(0, 1), (1, 2)]⟩
    (by decide) (by decide) (by decide)
  exact ⟨h.1.1, (h.2 0 1 (by decide) (by decide)).mpr (by decide)⟩

/-- C3 counterexample: a graph with a single edge.  Its line graph has one
node and no edges, and `from_edgelist` keeps only endpoints of edges, so the
resulting node count is 0 while the input edge count is 1. -/
theorem line_graph_node_count_counterexample :
    ¬ ((createLineGraph ⟨[0, 1], [(0, 1)]⟩).nodes.length =
        (FinGraph.mk [0, 1] [(0, 1)] : FinGraph Nat).edges.length) := by
  decide

/-- C3 amended: the node-per-edge correspondence and the shared-endpoint
adjacency hold provided no edge is isolated (and canonical edges are
distinct); an isolated edge's line-graph node is dropped by
`from_edgelist`. -/
theorem line_graph_node_per_edge_amended (G : FinGraph Nat)
    (hnd : (G.edges.map sortedEdge).Nodup)
    (hiso : ∀ a ∈ G.edges.map sortedEdge, ∃ b ∈ G.edges.map sortedEdge,
      b ≠ a ∧ sharesEndpoint a b = true) :
    (createLineGraph G).nodes.length = G.edges.length ∧
    (∀ (i j : Nat) (hi : i < G.edges.length) (hj : j < G.edges.length),
      adjacent (createLineGraph G) i j ↔
        (i ≠ j ∧ sharesEndpoint (G.edges.get ⟨i, hi⟩) (G.edges.get ⟨j, hj⟩) = true)) :=
  ⟨createLineGraph_nodes_length G hnd hiso,
    fun i j hi hj => createLineGraph_adjacent_iff G hnd i j hi hj⟩

theorem line_graph_node_per_edge_amended_witness :
    (createLineGraph ⟨[0, 1, 2], [(0, 1), (0, 2), (1, 2)]⟩).nodes.length = 3 ∧
    adjacent (createLineGraph ⟨[0, 1, 2], [(0, 1), (0, 2), (1, 2)]⟩) 0 2 := by
  have h := line_graph_node_per_edge_amended ⟨[0, 1, 2], [(0, 1), (0, 2), (1, 2)]⟩
    (by decide) (by decide)
  exact ⟨h.1, (h.2 0 2 (by decide) (by decide)).mpr (by decide)⟩

/-- C9: a graph with zero edges produces the empty graph — zero nodes and
zero edges — and no error. -/
theorem line_graph_empty_edge_list (ns : List Nat) :
    createLineGraph ⟨ns, []⟩ = ⟨[], []⟩ := rfl
